import Mathlib

/-!
Verification of the Optisnap batch intake pipeline (`src/components/DropZone.tsx`,
`src/types.ts`, `src/components/HistoryPanel.tsx`) against its specification.

The TypeScript source is shallowly embedded:
* `isValidImageFile`, `basename` and `generateId`-consumption are modelled as pure
  functions over `String` / `List Char`;
* the asynchronous filesystem calls (`stat`, `get_image_dimensions`) are modelled
  by an explicit environment `Env` of partial functions (`Option` encodes failure);
* the chunked loop of `processFilePaths` is modelled as a fold over the chunk
  decomposition of the input, returning the full observable trace: tracked
  records, `onFilesAdded` batch invocations, and `setLoadingProgress` calls.
  `Promise.all` preserves the order of its input array, so within-chunk results
  appear in source order; the fresh random id drawn per accepted file is modelled
  by a token stream indexed by the file's position in the input (one admissible
  serialisation of the concurrent draws).
-/

namespace Optisnap

/-- File processing status, from `FileStatus` in `src/types.ts`. -/
inductive FileStatus where
  | pending
  | processing
  | success
  | failed
deriving DecidableEq, Repr

/-- A tracked file record as built by `processFilePaths` (`TrackedFile` in
`src/types.ts`; the fields `error`, `outputPath`, `outputSize`, `outputWidth`,
`outputHeight` are never set during intake and are omitted). -/
structure TrackedFile where
  id : String
  name : String
  path : String
  size : Nat
  width : Option Nat
  height : Option Nat
  status : FileStatus
deriving DecidableEq, Repr

/-- The supported image extensions, from `SUPPORTED_EXTENSIONS` in `src/types.ts`. -/
def SUPPORTED_EXTENSIONS : List String :=
  [".png", ".jpg", ".jpeg", ".webp", ".tiff", ".tif", ".bmp", ".gif", ".qoi"]

/-- Index of the last occurrence of a character in a list, `none` when absent
(JavaScript `String.prototype.lastIndexOf` returns `-1` in that case; the
`Option` encodes the `-1`). -/
def lastIndexOf (c : Char) : List Char → Option Nat
  | [] => none
  | x :: xs =>
    match lastIndexOf c xs with
    | some i => some (i + 1)
    | none => if x = c then some 0 else none

/-- `isValidImageFile` from `src/components/DropZone.tsx` lines 28-31:
`filename.toLowerCase().slice(filename.lastIndexOf('.'))` checked against
`SUPPORTED_EXTENSIONS`.  When the filename has no dot, `lastIndexOf` is `-1`
and JavaScript `slice(-1)` keeps only the final character. -/
def isValidImageFile (filename : String) : Bool :=
  let cs := filename.toList
  let lower := cs.map Char.toLower
  let ext :=
    match lastIndexOf '.' cs with
    | some i => lower.drop i
    | none => lower.drop (lower.length - 1)
  SUPPORTED_EXTENSIONS.contains (String.mk ext)

/-- Splitting a character list at every separator, with JavaScript `split`
semantics: the empty input yields `[[]]`, a trailing separator yields a final
empty segment. -/
def splitChars (sep : Char → Bool) : List Char → List (List Char)
  | [] => [[]]
  | c :: cs =>
    let r := splitChars sep cs
    if sep c then [] :: r
    else
      match r with
      | [] => [[c]]
      | h :: t => (c :: h) :: t

/-- The basename computation `path.split(/[\\/]/).pop() || path` from
`processFilePaths` line 100: the segment after the last path separator, falling
back to the whole path when that segment is empty (JavaScript `||` on a falsy
`""` or `undefined`). -/
def basename (path : String) : String :=
  let parts := (splitChars (fun c => c = '/' || c = '\\') path.toList).map String.mk
  match parts.getLast? with
  | some s => if s = "" then path else s
  | none => path

/-- The filesystem environment seen by one ingest run: `stat` yields a size or
fails (`StatError`, the `catch` at line 123), `get_image_dimensions` yields
dimensions or fails independently (the inner `catch` at line 110). -/
structure Env where
  statF : String → Option Nat
  dimsF : String → Option (Nat × Nat)

/-- Resolution of one path (the body of the `batch.map` callback, lines 99-129):
compute the display name, validate the extension, `stat`, best-effort
dimensions, and build a `pending` record; `none` models the `null` results
(invalid extension or `StatError`). -/
def resolvePath (env : Env) (id : String) (path : String) : Option TrackedFile :=
  let name := basename path
  if isValidImageFile name then
    match env.statF path with
    | some size =>
      let dims := env.dimsF path
      some { id := id, name := name, path := path, size := size,
             width := dims.map Prod.fst, height := dims.map Prod.snd,
             status := FileStatus.pending }
    | none => none
  else none

/-- In-order resolution of a list of paths, drawing the id token for the path at
global input position `start + j` from the stream `ids`.  This is the
`Promise.all` fan-in followed by the `filter(f => f !== null)` of lines 98-133:
`Promise.all` returns results in the order of its input array, so the chunk's
surviving records appear in source order. -/
def resolveFrom (env : Env) (ids : Nat → String) : Nat → List String → List TrackedFile
  | _, [] => []
  | start, p :: rest =>
    match resolvePath env (ids start) p with
    | some r => r :: resolveFrom env ids (start + 1) rest
    | none => resolveFrom env ids (start + 1) rest

/-- Fuel-indexed worker for `chunksOf`; the fuel is only a termination device
(the caller passes the list's length, which always suffices because every step
consumes at least one element). -/
def chunksOfAux (b : Nat) : Nat → List α → List (List α)
  | _, [] => []
  | 0, _ :: _ => []
  | fuel + 1, p :: rest => (p :: rest.take (b - 1)) :: chunksOfAux b fuel (rest.drop (b - 1))

/-- Decomposition of the input into chunks of `b` paths, mirroring
`for (let i = 0; i < paths.length; i += BATCH_SIZE) { paths.slice(i, i + BATCH_SIZE) }`
(lines 94-95).  The `p :: take (b-1)` form always consumes at least one path,
so the recursion is total for every `b`; for `b ≥ 1` it equals the source's
slicing. -/
def chunksOf (b : Nat) (l : List α) : List (List α) :=
  chunksOfAux b l.length l

/-- The observable trace of one `processFilePaths` run: the final `trackedFiles`
accumulator, the successive non-empty arguments of `onFilesAdded` (line 141),
and the successive `setLoadingProgress` arguments issued inside the loop
(line 137). -/
structure IngestTrace where
  tracked : List TrackedFile
  batches : List (List TrackedFile)
  progress : List (Nat × Nat)
deriving DecidableEq, Repr

/-- `BATCH_SIZE = 10` from line 91. -/
def BATCH_SIZE : Nat := 10

/-- The loop of `processFilePaths` (lines 94-143) over an explicit chunk list:
each chunk is resolved concurrently and re-sequenced to source order
(`Promise.all`), the surviving records extend `trackedFiles`, `onFilesAdded`
fires only when the chunk produced at least one record, and the progress update
`{current: min(i + BATCH_SIZE, total), total}` is pushed for every chunk. -/
def runChunks (env : Env) (ids : Nat → String) (b : Nat) (total : Nat) :
    Nat → List (List String) → IngestTrace
  | _, [] => ⟨[], [], []⟩
  | start, c :: cs =>
    let validFiles := resolveFrom env ids start c
    let tail := runChunks env ids b total (start + c.length) cs
    ⟨validFiles ++ tail.tracked,
     (if validFiles.length > 0 then [validFiles] else []) ++ tail.batches,
     (min (start + b) total, total) :: tail.progress⟩

/-- One ingest run with an arbitrary chunk size `b` (the source fixes
`b = BATCH_SIZE`; the parameter exists to state chunk-size transparency). -/
def ingestWith (env : Env) (ids : Nat → String) (b : Nat) (paths : List String) :
    IngestTrace :=
  runChunks env ids b paths.length 0 (chunksOf b paths)

/-- The body of `processFilePaths` past the `disabled` guard, with the source's
chunk size. -/
def processFilePathsRun (env : Env) (ids : Nat → String) (paths : List String) :
    IngestTrace :=
  ingestWith env ids BATCH_SIZE paths

/-- `processFilePaths` itself (lines 83-148): `if (disabled) return;` aborts the
run before any observable effect; otherwise the chunked loop executes. -/
def processFilePaths (env : Env) (ids : Nat → String) (disabled : Bool)
    (paths : List String) : Option IngestTrace :=
  if disabled then none else some (processFilePathsRun env ids paths)

/-- All `setLoadingProgress` values that report ingest progress during a run:
the initial `{current: 0, total: paths.length}` of line 88 followed by the
per-chunk updates of line 137.  The `finally` block's `{0, 0}` (line 146) is the
completion signal, modelled separately as `completionSignal`. -/
def emittedProgress (env : Env) (ids : Nat → String) (paths : List String) :
    List (Nat × Nat) :=
  (0, paths.length) :: (processFilePathsRun env ids paths).progress

/-- The terminal `setLoadingProgress({current: 0, total: 0})` of the `finally`
block (line 146), signalling completion and re-enabling further drops/picks. -/
def completionSignal : Nat × Nat := (0, 0)

/-! ### Basic lemmas about the chunk decomposition -/

lemma chunksOfAux_fuel_irrelevant (b : Nat) :
    ∀ fuel fuel' (l : List α), l.length ≤ fuel → l.length ≤ fuel' →
      chunksOfAux b fuel l = chunksOfAux b fuel' l := by
  intro fuel
  induction fuel with
  | zero =>
    intro fuel' l h _
    have hl : l = [] := List.eq_nil_of_length_eq_zero (Nat.le_zero.mp h)
    subst hl
    cases fuel' <;> rfl
  | succ n ih =>
    intro fuel' l h h'
    cases l with
    | nil => cases fuel' <;> rfl
    | cons p rest =>
      cases fuel' with
      | zero => exact absurd h' (by simp)
      | succ m =>
        simp only [chunksOfAux]
        congr 1
        apply ih
        · simp only [List.length_drop]
          simp only [List.length_cons] at h
          omega
        · simp only [List.length_drop]
          simp only [List.length_cons] at h'
          omega

@[simp] lemma chunksOf_nil (b : Nat) : chunksOf b ([] : List α) = [] := rfl

lemma chunksOf_cons (b : Nat) (p : α) (rest : List α) :
    chunksOf b (p :: rest) =
      (p :: rest.take (b - 1)) :: chunksOf b (rest.drop (b - 1)) := by
  simp only [chunksOf, List.length_cons, chunksOfAux]
  congr 1
  apply chunksOfAux_fuel_irrelevant
  · simp only [List.length_drop]; omega
  · exact le_rfl

lemma flatten_chunksOf (b : Nat) (l : List α) : (chunksOf b l).flatten = l := by
  have H : ∀ n (l : List α), l.length ≤ n → (chunksOf b l).flatten = l := by
    intro n
    induction n with
    | zero =>
      intro l h
      have hl : l = [] := List.eq_nil_of_length_eq_zero (Nat.le_zero.mp h)
      subst hl; rfl
    | succ n ih =>
      intro l h
      cases l with
      | nil => rfl
      | cons p rest =>
        rw [chunksOf_cons]
        simp only [List.flatten_cons]
        rw [ih (rest.drop (b - 1)) (by simp only [List.length_drop]; simp only [List.length_cons] at h; omega)]
        simp [List.take_append_drop]
  exact H l.length l le_rfl

lemma chunksOf_length_le (b : Nat) (hb : 0 < b) (l : List α) :
    ∀ c ∈ chunksOf b l, c.length ≤ b := by
  have H : ∀ n (l : List α), l.length ≤ n → ∀ c ∈ chunksOf b l, c.length ≤ b := by
    intro n
    induction n with
    | zero =>
      intro l h
      have hl : l = [] := List.eq_nil_of_length_eq_zero (Nat.le_zero.mp h)
      subst hl; simp
    | succ n ih =>
      intro l h c hc
      cases l with
      | nil => simp at hc
      | cons p rest =>
        rw [chunksOf_cons] at hc
        rcases List.mem_cons.mp hc with h1 | h2
        · subst h1
          simp only [List.length_cons, List.length_take]
          omega
        · exact ih (rest.drop (b - 1))
            (by simp only [List.length_drop]; simp only [List.length_cons] at h; omega) c h2
  exact H l.length l le_rfl

/-! ### Lemmas about path resolution -/

/-- A record produced by `resolvePath` carries the path it was resolved from. -/
lemma resolvePath_path (env : Env) (id p : String) (r : TrackedFile)
    (h : resolvePath env id p = some r) : r.path = p := by
  unfold resolvePath at h
  by_cases hv : isValidImageFile (basename p)
  · simp only [hv, if_true] at h
    cases hs : env.statF p with
    | some sz => rw [hs] at h; cases h; rfl
    | none => rw [hs] at h; cases h
  · simp [hv] at h

/-- `resolvePath` succeeds exactly when the name validates and `stat` succeeds. -/
lemma resolvePath_isSome (env : Env) (id p : String) :
    (resolvePath env id p).isSome =
      (isValidImageFile (basename p) && (env.statF p).isSome) := by
  unfold resolvePath
  by_cases hv : isValidImageFile (basename p)
  · cases hs : env.statF p <;> simp [hv, hs]
  · simp [hv]

lemma resolveFrom_append (env : Env) (ids : Nat → String) :
    ∀ (l₁ l₂ : List String) (start : Nat),
      resolveFrom env ids start (l₁ ++ l₂) =
        resolveFrom env ids start l₁ ++ resolveFrom env ids (start + l₁.length) l₂ := by
  intro l₁
  induction l₁ with
  | nil => intro l₂ start; simp [resolveFrom]
  | cons p rest ih =>
    intro l₂ start
    have harg : start + 1 + rest.length = start + (rest.length + 1) := by omega
    cases hr : resolvePath env (ids start) p with
    | some r =>
      simp only [List.cons_append, resolveFrom, hr, List.append_eq, ih, List.length_cons, harg]
    | none =>
      simp only [List.cons_append, resolveFrom, hr, List.append_eq, ih, List.length_cons, harg]

/-- The paths of the records produced in order are exactly the input paths that
validate and stat successfully, in input order. -/
lemma resolveFrom_map_path (env : Env) (ids : Nat → String) :
    ∀ (l : List String) (start : Nat),
      (resolveFrom env ids start l).map TrackedFile.path =
        l.filter fun p => isValidImageFile (basename p) && (env.statF p).isSome := by
  intro l
  induction l with
  | nil => intro start; simp [resolveFrom]
  | cons p rest ih =>
    intro start
    simp only [resolveFrom]
    cases hr : resolvePath env (ids start) p with
    | some r =>
      have hp : r.path = p := resolvePath_path env (ids start) p r hr
      have hsome : (isValidImageFile (basename p) && (env.statF p).isSome) = true := by
        rw [← resolvePath_isSome env (ids start) p, hr]; rfl
      simp [List.filter_cons, hsome, hp, ih]
    | none =>
      have hnone : (isValidImageFile (basename p) && (env.statF p).isSome) = false := by
        rw [← resolvePath_isSome env (ids start) p, hr]; rfl
      simp [List.filter_cons, hnone, ih]

/-! ### Characterisation of the ingest loop -/

/-- The final tracked accumulator is the in-order resolution of the
concatenation of the chunks. -/
lemma runChunks_tracked (env : Env) (ids : Nat → String) (b total : Nat) :
    ∀ (cs : List (List String)) (start : Nat),
      (runChunks env ids b total start cs).tracked = resolveFrom env ids start cs.flatten := by
  intro cs
  induction cs with
  | nil => intro start; simp [runChunks, resolveFrom]
  | cons c cs ih =>
    intro start
    simp only [runChunks, List.flatten_cons, resolveFrom_append, ih]

/-- The `onFilesAdded` batches, concatenated in delivery order, are exactly the
final tracked list. -/
lemma runChunks_batches_join (env : Env) (ids : Nat → String) (b total : Nat) :
    ∀ (cs : List (List String)) (start : Nat),
      (runChunks env ids b total start cs).batches.flatten =
        (runChunks env ids b total start cs).tracked := by
  intro cs
  induction cs with
  | nil => intro start; simp [runChunks]
  | cons c cs ih =>
    intro start
    simp only [runChunks]
    by_cases h : (resolveFrom env ids start c).length > 0
    · simp [h, ih]
    · have : resolveFrom env ids start c = [] := by
        simpa using List.eq_nil_of_length_eq_zero (by omega)
      simp [h, ih, this]

/-- Exactly one progress update is pushed per chunk. -/
lemma runChunks_progress_length (env : Env) (ids : Nat → String) (b total : Nat) :
    ∀ (cs : List (List String)) (start : Nat),
      (runChunks env ids b total start cs).progress.length = cs.length := by
  intro cs
  induction cs with
  | nil => intro start; simp [runChunks]
  | cons c cs ih =>
    intro start
    simp only [runChunks, List.length_cons]
    rw [ih]

/-- Every batch handed to `onFilesAdded` is non-empty. -/
lemma runChunks_batches_ne_nil (env : Env) (ids : Nat → String) (b total : Nat) :
    ∀ (cs : List (List String)) (start : Nat),
      ∀ l ∈ (runChunks env ids b total start cs).batches, l ≠ [] := by
  intro cs
  induction cs with
  | nil => intro start l hl; simp [runChunks] at hl
  | cons c cs ih =>
    intro start l hl
    simp only [runChunks] at hl
    by_cases h : (resolveFrom env ids start c).length > 0
    · simp only [h, if_true] at hl
      rcases List.mem_append.mp hl with h1 | h2
      · rcases List.mem_singleton.mp h1 with rfl
        intro hnil
        rw [hnil] at h
        simp at h
      · exact ih (start + c.length) l h2
    · simp only [h, if_false, List.nil_append] at hl
      exact ih (start + c.length) l hl

/-- The progress trace depends only on the chunk lengths, never on the
filesystem environment or the id stream. -/
lemma runChunks_progress_env_independent (env env' : Env) (ids ids' : Nat → String)
    (b total : Nat) :
    ∀ (cs : List (List String)) (start : Nat),
      (runChunks env ids b total start cs).progress =
        (runChunks env' ids' b total start cs).progress := by
  intro cs
  induction cs with
  | nil => intro start; rfl
  | cons c cs ih =>
    intro start
    simp only [runChunks]
    rw [ih]

/-- Every progress update reports the full input length as its `total`. -/
lemma runChunks_progress_total (env : Env) (ids : Nat → String) (b total : Nat) :
    ∀ (cs : List (List String)) (start : Nat),
      ∀ u ∈ (runChunks env ids b total start cs).progress, u.2 = total := by
  intro cs
  induction cs with
  | nil => intro start u hu; simp [runChunks] at hu
  | cons c cs ih =>
    intro start u hu
    simp only [runChunks] at hu
    rcases List.mem_cons.mp hu with h1 | h2
    · rw [h1]
    · exact ih (start + c.length) u h2

/-- The `current` components of the progress updates are non-decreasing, from
any lower bound `low ≤ start` on the previous update. -/
lemma runChunks_progress_chain (env : Env) (ids : Nat → String) (b : Nat) :
    ∀ n (l : List String) (start low total : Nat), l.length ≤ n → low ≤ start →
      total = start + l.length →
      List.Chain' (fun x y => x.1 ≤ y.1)
        ((low, total) :: (runChunks env ids b total start (chunksOf b l)).progress) := by
  intro n
  induction n with
  | zero =>
    intro l start low total h _ _
    have hl : l = [] := List.eq_nil_of_length_eq_zero (Nat.le_zero.mp h)
    subst hl
    simp [runChunks]
  | succ n ih =>
    intro l start low total h hlow htot
    cases l with
    | nil => simp [runChunks]
    | cons p rest =>
      rw [chunksOf_cons]
      simp only [runChunks, List.length_cons, List.length_take]
      rw [List.chain'_cons]
      constructor
      · simp only [List.length_cons] at htot
        omega
      · have hstep := ih (rest.drop (b - 1)) (start + (min (b - 1) rest.length + 1))
          (min (start + b) total) total
          (by simp only [List.length_drop]; simp only [List.length_cons] at h; omega)
          (by simp only [List.length_cons] at htot; omega)
          (by simp only [List.length_drop]; simp only [List.length_cons] at htot; omega)
        simpa using hstep

/-- The last progress update of a non-empty run reports `current = total`. -/
lemma runChunks_progress_getLast (env : Env) (ids : Nat → String) (b : Nat) (hb : 0 < b) :
    ∀ n (l : List String) (start total : Nat), l.length ≤ n → l ≠ [] →
      total = start + l.length →
      (runChunks env ids b total start (chunksOf b l)).progress.getLast? =
        some (total, total) := by
  intro n
  induction n with
  | zero =>
    intro l start total h hne _
    exact absurd (List.eq_nil_of_length_eq_zero (Nat.le_zero.mp h)) hne
  | succ n ih =>
    intro l start total h hne htot
    cases l with
    | nil => exact absurd rfl hne
    | cons p rest =>
      rw [chunksOf_cons]
      simp only [runChunks, List.length_cons, List.length_take]
      cases hrem : rest.drop (b - 1) with
      | nil =>
        have hrest : rest.length ≤ b - 1 := by
          have := congrArg List.length hrem
          simp only [List.length_drop, List.length_nil] at this
          omega
        simp only [chunksOf_nil, runChunks]
        simp only [List.length_cons] at htot
        have : min (start + b) total = total := by omega
        simp [this]
      | cons q t =>
        have hlen : (rest.drop (b - 1)).length ≤ n := by
          simp only [List.length_drop]
          simp only [List.length_cons] at h
          omega
        have htail := ih (rest.drop (b - 1)) (start + (min (b - 1) rest.length + 1)) total
          (by rw [hrem] at hlen ⊢; exact hlen)
          (by rw [hrem]; simp)
          (by simp only [List.length_drop]; simp only [List.length_cons] at htot; omega)
        rw [hrem] at htail
        rw [List.getLast?_cons]
        rw [htail]
        rfl

/-! ### Per-chunk batch characterisation -/

/-- The resolution of each chunk, in chunk order, including empty outputs. -/
def chunkResolutions (env : Env) (ids : Nat → String) :
    Nat → List (List String) → List (List TrackedFile)
  | _, [] => []
  | start, c :: cs =>
    resolveFrom env ids start c :: chunkResolutions env ids (start + c.length) cs

/-- `onFilesAdded` receives exactly the non-empty chunk resolutions, in chunk
order. -/
lemma runChunks_batches_filter (env : Env) (ids : Nat → String) (b total : Nat) :
    ∀ (cs : List (List String)) (start : Nat),
      (runChunks env ids b total start cs).batches =
        (chunkResolutions env ids start cs).filter fun l => !l.isEmpty := by
  intro cs
  induction cs with
  | nil => intro start; rfl
  | cons c cs ih =>
    intro start
    simp only [runChunks, chunkResolutions, List.filter_cons]
    cases hc : resolveFrom env ids start c with
    | nil => simp [hc, ih]
    | cons r rs => simp [hc, ih]

/-! ### Stat-failure isolation -/

/-- The environment obtained from `env` by making `stat` fail on `p` only. -/
def statFailAt (env : Env) (p : String) : Env :=
  ⟨fun q => if q = p then none else env.statF q, env.dimsF⟩

lemma resolvePath_statFailAt (env : Env) (p id q : String) :
    resolvePath (statFailAt env p) id q = if q = p then none else resolvePath env id q := by
  by_cases h : q = p
  · subst h
    simp only [resolvePath, statFailAt, if_pos rfl]
    by_cases hv : isValidImageFile (basename q) <;> simp [hv]
  · simp only [resolvePath, statFailAt, if_neg h]

lemma resolveFrom_statFailAt (env : Env) (ids : Nat → String) (p : String) :
    ∀ (l : List String) (start : Nat),
      resolveFrom (statFailAt env p) ids start l =
        (resolveFrom env ids start l).filter fun r => r.path != p := by
  intro l
  induction l with
  | nil => intro start; rfl
  | cons q rest ih =>
    intro start
    simp only [resolveFrom, resolvePath_statFailAt]
    by_cases h : q = p
    · subst h
      cases hr : resolvePath env (ids start) q with
      | some r =>
        have hp : r.path = q := resolvePath_path env (ids start) q r hr
        simp [List.filter_cons, hp, ih]
      | none => simp [List.filter_cons, ih]
    · cases hr : resolvePath env (ids start) q with
      | some r =>
        have hp : r.path = q := resolvePath_path env (ids start) q r hr
        have : (r.path != p) = true := by simp [hp, h]
        simp [List.filter_cons, h, this, ih]
      | none => simp [List.filter_cons, h, ih]

/-- A record with its generated id blanked out, to compare store states while
ignoring the random ids (and the source has no timestamps on records). -/
def eraseId (r : TrackedFile) : TrackedFile :=
  { r with id := "" }

/-! ### Concrete sample data for counterexamples and witnesses -/

/-- A filesystem where every `stat` succeeds with size 100 and every dimension
lookup yields 10 × 10. -/
def envAllOk : Env := ⟨fun _ => some 100, fun _ => some (10, 10)⟩

/-- A filesystem where every `stat` fails. -/
def envNoStat : Env := ⟨fun _ => none, fun _ => none⟩

/-- An id stream that yields distinct tokens (`"a"`, `"aa"`, `"aaa"`, …). -/
def idsDistinct : Nat → String := fun n => String.mk (List.replicate (n + 1) 'a')

/-- A degenerate id stream in which every draw yields the same token, as
`Math.random()` may do. -/
def idsConst : Nat → String := fun _ => "x"

/-! ### Claim theorems -/

/-- C1: the claim states that the number of records added by one ingest call
equals the number of input paths accepted by the extension validator.  This
fails whenever a validator-accepted path's `stat` call fails: with one valid
path whose `stat` fails, the store gains 0 records while the validator accepts
1 path. -/
theorem C1_counterexample :
    (processFilePathsRun envNoStat idsConst ["a.png"]).tracked.length ≠
      ((["a.png"].filter fun p => isValidImageFile (basename p)).length) := by
  decide

/-- C1 (amended): the number of records added by one ingest call equals the
number of input paths that pass the extension validator *and* whose `stat`
succeeds; those paths appear exactly once each, in input order (so duplicates
arise only from duplicated input). -/
theorem C1_store_growth (env : Env) (ids : Nat → String) (paths : List String) :
    (processFilePathsRun env ids paths).tracked.length =
      (paths.filter fun p => isValidImageFile (basename p) && (env.statF p).isSome).length ∧
    (processFilePathsRun env ids paths).tracked.map TrackedFile.path =
      paths.filter fun p => isValidImageFile (basename p) && (env.statF p).isSome := by
  have htr : (processFilePathsRun env ids paths).tracked = resolveFrom env ids 0 paths := by
    simp only [processFilePathsRun, ingestWith, runChunks_tracked, flatten_chunksOf]
  constructor
  · rw [htr, ← resolveFrom_map_path env ids paths 0, List.length_map]
  · rw [htr, resolveFrom_map_path]

/-- C2: records are delivered to the store in per-chunk batches — the batches
are exactly the non-empty chunk resolutions in chunk order (so chunk N's
records are appended strictly before chunk N+1's), and their concatenation is
the in-order resolution of the whole input (so within each chunk the records
appear in original input-path order, `Promise.all` having re-sequenced the
concurrently resolved files). -/
theorem C2_batch_ordering (env : Env) (ids : Nat → String) (paths : List String) :
    (processFilePathsRun env ids paths).batches =
      ((chunkResolutions env ids 0 (chunksOf BATCH_SIZE paths)).filter fun l => !l.isEmpty) ∧
    (processFilePathsRun env ids paths).batches.flatten = resolveFrom env ids 0 paths := by
  constructor
  · simp only [processFilePathsRun, ingestWith, runChunks_batches_filter]
  · simp only [processFilePathsRun, ingestWith, runChunks_batches_join,
      runChunks_tracked, flatten_chunksOf]

/-- C3: during one ingest call the progress updates (the initial
`{0, total}` and the per-chunk updates; the `finally` reset `{0,0}` is the
separate completion signal) are monotonically non-decreasing in `current`,
every update carries `total = paths.length` (invalid and excluded paths
included), and the last update is `{paths.length, paths.length}`. -/
theorem C3_progress_monotone (env : Env) (ids : Nat → String) (paths : List String) :
    List.Chain' (fun x y => x.1 ≤ y.1) (emittedProgress env ids paths) ∧
    (emittedProgress env ids paths).getLast? = some (paths.length, paths.length) ∧
    ((emittedProgress env ids paths).all fun u => u.2 == paths.length) = true := by
  refine ⟨?_, ?_, ?_⟩
  · exact runChunks_progress_chain env ids BATCH_SIZE paths.length paths 0 0 paths.length
      le_rfl (Nat.le_refl 0) (by omega)
  · cases hp : paths with
    | nil => rfl
    | cons p rest =>
      simp only [emittedProgress, processFilePathsRun, ingestWith, List.getLast?_cons]
      rw [runChunks_progress_getLast env ids BATCH_SIZE (by decide) (p :: rest).length
        (p :: rest) 0 (p :: rest).length le_rfl (by simp) (by omega)]
      rfl
  · rw [List.all_eq_true]
    intro u hu
    rcases List.mem_cons.mp hu with h1 | h2
    · rw [h1]; simp
    · have := runChunks_progress_total env ids BATCH_SIZE paths.length
        (chunksOf BATCH_SIZE paths) 0 u h2
      simp [this]

/-- C5: failing `stat` on one path excludes exactly that path's records from
the tracked output and from every delivered batch, while the progress trace —
and hence completion — is unchanged: the other paths of every chunk are still
resolved and delivered. -/
theorem C5_stat_failure_isolated (env : Env) (ids : Nat → String) (p : String)
    (paths : List String) :
    (processFilePathsRun (statFailAt env p) ids paths).tracked =
      ((processFilePathsRun env ids paths).tracked.filter fun r => r.path != p) ∧
    (processFilePathsRun (statFailAt env p) ids paths).batches.flatten =
      ((processFilePathsRun env ids paths).batches.flatten.filter fun r => r.path != p) ∧
    (processFilePathsRun (statFailAt env p) ids paths).progress =
      (processFilePathsRun env ids paths).progress := by
  have htr : ∀ (e : Env), (processFilePathsRun e ids paths).tracked =
      resolveFrom e ids 0 paths := by
    intro e
    simp only [processFilePathsRun, ingestWith, runChunks_tracked, flatten_chunksOf]
  have hba : ∀ (e : Env), (processFilePathsRun e ids paths).batches.flatten =
      resolveFrom e ids 0 paths := by
    intro e
    simp only [processFilePathsRun, ingestWith, runChunks_batches_join,
      runChunks_tracked, flatten_chunksOf]
  refine ⟨?_, ?_, ?_⟩
  · rw [htr, htr, resolveFrom_statFailAt]
  · rw [hba, hba, resolveFrom_statFailAt]
  · simp only [processFilePathsRun, ingestWith]
    exact runChunks_progress_env_independent (statFailAt env p) env ids ids BATCH_SIZE
      paths.length (chunksOf BATCH_SIZE paths) 0

/-- C8: chunking is observationally transparent — for any two positive chunk
sizes, ingesting the same paths yields the same sequence of store-bound records
(concatenation of the delivered batches) once the generated ids are ignored
(records carry no timestamps). -/
theorem C8_chunk_size_transparent (env : Env) (ids : Nat → String)
    (paths : List String) (b₁ b₂ : Nat) (_hpos₁ : 0 < b₁) (_hpos₂ : 0 < b₂) :
    (ingestWith env ids b₁ paths).batches.flatten.map eraseId =
      (ingestWith env ids b₂ paths).batches.flatten.map eraseId := by
  have key : ∀ b, (ingestWith env ids b paths).batches.flatten = resolveFrom env ids 0 paths := by
    intro b
    simp only [ingestWith, runChunks_batches_join, runChunks_tracked, flatten_chunksOf]
  rw [key b₁, key b₂]

/-- Witness for C8 at a concrete input: chunk sizes 3 and 10 on a 5-path list. -/
theorem C8_witness :
    0 < 3 ∧ 0 < 10 ∧
    (ingestWith envAllOk idsDistinct 3 ["a.png", "b.txt", "c.jpg", "d.gif", "e.png"]).batches.flatten.map eraseId =
      (ingestWith envAllOk idsDistinct 10 ["a.png", "b.txt", "c.jpg", "d.gif", "e.png"]).batches.flatten.map eraseId :=
  ⟨by decide, by decide,
    C8_chunk_size_transparent envAllOk idsDistinct
      ["a.png", "b.txt", "c.jpg", "d.gif", "e.png"] 3 10 (by decide) (by decide)⟩

/-- C10: `onFilesAdded` is only ever invoked with a non-empty record list, and
the per-chunk progress update is emitted for every chunk — including chunks in
which every path was rejected or failed `stat`. -/
theorem C10_batches_nonempty (env : Env) (ids : Nat → String) (paths : List String) :
    ((processFilePathsRun env ids paths).batches.all fun l => !l.isEmpty) = true ∧
    (processFilePathsRun env ids paths).progress.length =
      (chunksOf BATCH_SIZE paths).length := by
  constructor
  · rw [List.all_eq_true]
    intro l hl
    have hne := runChunks_batches_ne_nil env ids BATCH_SIZE paths.length
      (chunksOf BATCH_SIZE paths) 0 l hl
    simp only [Bool.not_eq_true']
    rw [← Bool.not_eq_true]
    intro hfalse
    exact hne (List.isEmpty_iff.mp hfalse)
  · exact runChunks_progress_length env ids BATCH_SIZE paths.length
      (chunksOf BATCH_SIZE paths) 0

/-! ### Entry guards of the two ingest triggers (claim C4) -/

/-- Whether the file-picker path starts an ingest run: `handleFileInput`
(lines 196-213) returns immediately when `disabled || isLoadingFiles`, and
also when the dialog was cancelled; otherwise it calls `processFilePaths`,
whose own entry guard (line 85) re-checks `disabled`. -/
def handleFileInputStarts (disabled isLoadingFiles : Bool)
    (dialog : Option (List String)) : Bool :=
  if disabled || isLoadingFiles then false
  else
    match dialog with
    | none => false
    | some _ => !disabled

/-- Whether the drag-drop path starts an ingest run: the Tauri
`onDragDropEvent` drop branch (lines 158-162) checks only that the payload
path list is non-empty before calling `processFilePaths`, whose entry guard
(line 85) checks only `disabled`.  The in-flight flag `isLoadingFiles` is not
consulted anywhere on this path (it is a parameter here only to express the
claim). -/
def dragDropStarts (disabled isLoadingFiles : Bool) (payloadPaths : List String) : Bool :=
  if payloadPaths.length > 0 then !disabled else false

/-- C4 (code bug exhibit): the claim says the disabled/suspended flag is
checked at entry of *every* ingest trigger, so that no new ingest starts while
one is in flight.  The file-picker entry honours this, but the drag-drop entry
does not: with an ingest in flight (`isLoadingFiles = true`, `disabled`
still `false`) a drop of `["a.png"]` starts a second, interleaved ingest run.
The surrounding code shows the check was intended there too: `handleDragOver`
(line 183) and the drop-zone styling both consult `isLoadingFiles`. -/
theorem C4_drop_path_ignores_loading_flag :
    dragDropStarts false true ["a.png"] = true ∧
    handleFileInputStarts false true (some ["a.png"]) = false := by
  decide

/-! ### History panel undo affordance (claim C9) -/

/-- A backup record `{originalPath, backupPath}` (`BackupRecord` in the spec,
rendered by `HistoryPanel`). -/
structure BackupRecord where
  originalPath : String
  backupPath : String
deriving DecidableEq, Repr

/-- A history entry as consumed by `HistoryPanel` (`HistoryEntry` in the data
model): one completed batch run with its undo backups. -/
structure HistoryEntry where
  id : String
  timestamp : Nat
  operationMode : String
  outputFormat : Option String
  filesProcessed : Nat
  successCount : Nat
  failedCount : Nat
  totalSizeBefore : Nat
  totalSizeAfter : Nat
  backups : List BackupRecord
deriving DecidableEq, Repr

/-- The interactive controls `HistoryPanel` renders for one entry. -/
inductive PanelControl where
  | expandToggle (entryId : String)
  | undoButton (entryId : String)
deriving DecidableEq, Repr

/-- The action-button row rendered per history entry (lines 127-157 of
`HistoryPanel.tsx`): the expand/collapse toggle always, and the undo button
exactly under the guard `entry.backups.length > 0` (line 144). -/
def entryControls (e : HistoryEntry) : List PanelControl :=
  [PanelControl.expandToggle e.id] ++
    (if e.backups.length > 0 then [PanelControl.undoButton e.id] else [])

/-- C9: the undo affordance is exposed for a history entry iff its backup
list is non-empty — an entry with zero backups renders no undo control. -/
theorem C9_undo_affordance (e : HistoryEntry) :
    PanelControl.undoButton e.id ∈ entryControls e ↔ e.backups ≠ [] := by
  unfold entryControls
  cases hb : e.backups with
  | nil => simp
  | cons r rs => simp

/-! ### Id generation across a session (claim C7)

`generateId` (lines 33-35) draws `Math.random().toString(36).substring(2, 11)`
once per accepted file.  The random source is modelled as a token stream
`ids : Nat → String`; each accepted file consumes a fresh stream position
(successive ingest calls continue the stream). -/

/-- The stream as seen by a run that starts after `k` tokens were consumed. -/
def shiftIds (ids : Nat → String) (k : Nat) : Nat → String := fun n => ids (k + n)

/-- The cumulative tracked-file store produced by a sequence of ingest calls,
each call consuming fresh positions of the shared id stream. -/
def sessionTracked (env : Env) (ids : Nat → String) :
    Nat → List (List String) → List TrackedFile
  | _, [] => []
  | start, ps :: rest =>
    (processFilePathsRun env (shiftIds ids start) ps).tracked ++
      sessionTracked env ids (start + ps.length) rest

/-- A record produced by `resolvePath` carries the id token it was given. -/
lemma resolvePath_id (env : Env) (id p : String) (r : TrackedFile)
    (h : resolvePath env id p = some r) : r.id = id := by
  unfold resolvePath at h
  by_cases hv : isValidImageFile (basename p)
  · simp only [hv, if_true] at h
    cases hs : env.statF p with
    | some sz => rw [hs] at h; cases h; rfl
    | none => rw [hs] at h; cases h
  · simp [hv] at h

lemma resolveFrom_shiftIds (env : Env) (ids : Nat → String) (k : Nat) :
    ∀ (l : List String) (start : Nat),
      resolveFrom env (shiftIds ids k) start l = resolveFrom env ids (k + start) l := by
  intro l
  induction l with
  | nil => intro start; rfl
  | cons p rest ih =>
    intro start
    have harg : k + start + 1 = k + (start + 1) := by omega
    simp only [resolveFrom, shiftIds, ih, harg]

/-- The ids of the records produced from one path list form a sublist of the
stream tokens at positions `start, start+1, …`. -/
lemma resolveFrom_map_id_sublist (env : Env) (ids : Nat → String) :
    ∀ (l : List String) (start : Nat),
      ((resolveFrom env ids start l).map TrackedFile.id).Sublist
        ((List.range' start l.length).map ids) := by
  intro l
  induction l with
  | nil => intro start; simp [resolveFrom]
  | cons p rest ih =>
    intro start
    simp only [List.length_cons, List.range'_succ, List.map_cons]
    cases hr : resolvePath env (ids start) p with
    | some r =>
      have hid : r.id = ids start := resolvePath_id env (ids start) p r hr
      simp only [resolveFrom, hr, List.map_cons, hid]
      exact List.Sublist.cons₂ (ids start) (ih (start + 1))
    | none =>
      simp only [resolveFrom, hr]
      exact List.Sublist.cons (ids start) (ih (start + 1))

/-- Across a whole session, record ids form a sublist of distinct-position
stream tokens. -/
lemma sessionTracked_map_id_sublist (env : Env) (ids : Nat → String) :
    ∀ (calls : List (List String)) (start : Nat),
      ((sessionTracked env ids start calls).map TrackedFile.id).Sublist
        ((List.range' start ((calls.map List.length).sum)).map ids) := by
  intro calls
  induction calls with
  | nil => intro start; simp [sessionTracked]
  | cons ps rest ih =>
    intro start
    have htr : (processFilePathsRun env (shiftIds ids start) ps).tracked =
        resolveFrom env ids start ps := by
      simp only [processFilePathsRun, ingestWith, runChunks_tracked, flatten_chunksOf,
        resolveFrom_shiftIds, Nat.add_zero]
    have hsplit : List.range' start ((ps.length :: (rest.map List.length)).sum) =
        List.range' start ps.length ++ List.range' (start + ps.length) ((rest.map List.length).sum) := by
      rw [List.range'_append_1]
      congr 1
      simp [List.sum_cons]
      omega
    simp only [sessionTracked, List.map_cons, List.map_append, htr, hsplit]
    exact List.Sublist.append (resolveFrom_map_id_sublist env ids ps start)
      (ih (start + ps.length))

/-- C7 (counterexample): ids are drawn from `Math.random()`, which may repeat a
token.  With a stream that repeats (`idsConst`), one ingest of two valid paths
produces two distinct records carrying the same id — so id uniqueness does not
hold for every random outcome. -/
theorem C7_counterexample :
    (sessionTracked envAllOk idsConst 0 [["a.png", "b.png"]]).Nodup ∧
    ¬ ((sessionTracked envAllOk idsConst 0 [["a.png", "b.png"]]).map TrackedFile.id).Nodup := by
  decide

/-- C7 (amended): whenever the random draws are pairwise distinct — the
intended, collision-free behaviour of `generateId` — every pair of records
created during a session (any sequence of ingest calls) has distinct ids. -/
theorem C7_session_ids_unique (env : Env) (ids : Nat → String)
    (calls : List (List String)) (hinj : Function.Injective ids) :
    ((sessionTracked env ids 0 calls).map TrackedFile.id).Nodup := by
  have hsub := sessionTracked_map_id_sublist env ids calls 0
  have hnd : ((List.range' 0 ((calls.map List.length).sum)).map ids).Nodup :=
    List.Nodup.map hinj (List.nodup_range' ..)
  exact hsub.nodup hnd

lemma idsDistinct_injective : Function.Injective idsDistinct := by
  intro a b h
  have hl := congrArg String.length h
  simp only [idsDistinct, String.length, List.length_replicate] at hl
  omega

/-- Witness for C7 (amended): a concrete injective stream over a two-call
session. -/
theorem C7_witness :
    ((sessionTracked envAllOk idsDistinct 0 [["a.png", "b.png"], ["c.jpg"]]).map
        TrackedFile.id).Nodup :=
  C7_session_ids_unique envAllOk idsDistinct [["a.png", "b.png"], ["c.jpg"]]
    idsDistinct_injective

/-! ### The path validator against the spec's wording (claim C6) -/

/-- Modelled from the spec's words for the refinement comparison of C6: the
fixed allow-list of bare extensions (png, jpg/jpeg, webp, tiff/tif, bmp, qoi,
gif), without the leading dot. -/
def specAllowedExtensions : List String :=
  ["png", "jpg", "jpeg", "webp", "tiff", "tif", "bmp", "gif", "qoi"]

/-- The extension of a filename per the spec's words: the characters after the
last dot; `none` when the filename has no dot. -/
def extensionOf (filename : String) : Option (List Char) :=
  match lastIndexOf '.' filename.toList with
  | some i => some (filename.toList.drop (i + 1))
  | none => none

/-- PathValidator as the spec words it: the filename's extension, compared
case-insensitively, is in the allow-list; a filename with no extension is
unsupported. -/
def isSupportedSpec (filename : String) : Bool :=
  match extensionOf filename with
  | some e => specAllowedExtensions.contains (String.mk (e.map Char.toLower))
  | none => false

lemma mk_eq_iff (l : List Char) (s : String) : String.mk l = s ↔ l = s.data := by
  rw [String.ext_iff]

/-- Strings of at most one character are never in the dotted allow-list. -/
lemma short_not_mem (l : List Char) (h : l.length ≤ 1) :
    String.mk l ∉ SUPPORTED_EXTENSIONS := by
  intro hmem
  simp only [SUPPORTED_EXTENSIONS, List.mem_cons, List.not_mem_nil, or_false,
    mk_eq_iff] at hmem
  rcases hmem with h' | h' | h' | h' | h' | h' | h' | h' | h' <;> subst h' <;> revert h <;> decide

/-- A dotted candidate is in the source allow-list exactly when the bare
candidate is in the spec's allow-list. -/
lemma mem_dotted_iff (m : List Char) :
    String.mk ('.' :: m) ∈ SUPPORTED_EXTENSIONS ↔ String.mk m ∈ specAllowedExtensions := by
  have h1 : (".png" : String).data = '.' :: ("png" : String).data := rfl
  have h2 : (".jpg" : String).data = '.' :: ("jpg" : String).data := rfl
  have h3 : (".jpeg" : String).data = '.' :: ("jpeg" : String).data := rfl
  have h4 : (".webp" : String).data = '.' :: ("webp" : String).data := rfl
  have h5 : (".tiff" : String).data = '.' :: ("tiff" : String).data := rfl
  have h6 : (".tif" : String).data = '.' :: ("tif" : String).data := rfl
  have h7 : (".bmp" : String).data = '.' :: ("bmp" : String).data := rfl
  have h8 : (".gif" : String).data = '.' :: ("gif" : String).data := rfl
  have h9 : (".qoi" : String).data = '.' :: ("qoi" : String).data := rfl
  simp only [SUPPORTED_EXTENSIONS, specAllowedExtensions, List.mem_cons, List.not_mem_nil,
    or_false, mk_eq_iff, h1, h2, h3, h4, h5, h6, h7, h8, h9, List.cons.injEq, true_and]

/-- `lastIndexOf` really points at an occurrence of the character. -/
lemma lastIndexOf_getElem? (c : Char) :
    ∀ (l : List Char) (i : Nat), lastIndexOf c l = some i → l[i]? = some c := by
  intro l
  induction l with
  | nil => intro i h; cases h
  | cons x xs ih =>
    intro i h
    simp only [lastIndexOf] at h
    cases hx : lastIndexOf c xs with
    | some j =>
      simp only [hx] at h
      cases h
      simpa using ih j hx
    | none =>
      simp only [hx] at h
      by_cases hxc : x = c
      · simp only [hxc, if_pos rfl] at h
        cases h
        simp [hxc]
      · simp [hxc] at h

/-- C6: the source validator `isValidImageFile` coincides with the
spec-worded predicate on every filename: accepted iff the extension after the
last dot, lowercased, is in the allow-list; a filename with no dot (JavaScript
`slice(-1)` then keeps one character, never a valid extension) or with an
extension outside the list is rejected, with no error. -/
theorem C6_validator_matches_spec (filename : String) :
    isValidImageFile filename = isSupportedSpec filename := by
  have hcon : ∀ (L : List String) (s : String), L.contains s = decide (s ∈ L) :=
    fun L s => List.elem_eq_mem s L
  cases hli : lastIndexOf '.' filename.toList with
  | none =>
    have hshort :
        ((filename.toList.map Char.toLower).drop
          ((filename.toList.map Char.toLower).length - 1)).length ≤ 1 := by
      simp only [List.length_drop]
      omega
    simp only [isValidImageFile, isSupportedSpec, extensionOf, hli, hcon]
    exact decide_eq_false (short_not_mem _ hshort)
  | some i =>
    have hget : filename.toList[i]? = some '.' :=
      lastIndexOf_getElem? '.' filename.toList i hli
    have hgetl : (filename.toList.map Char.toLower)[i]? = some '.' := by
      rw [List.getElem?_map, hget]
      rfl
    obtain ⟨hlt, hval⟩ := List.getElem?_eq_some.mp hgetl
    have hdrop : (filename.toList.map Char.toLower).drop i =
        '.' :: (filename.toList.map Char.toLower).drop (i + 1) := by
      rw [List.drop_eq_getElem_cons hlt, hval]
    simp only [isValidImageFile, isSupportedSpec, extensionOf, hli, hcon]
    rw [hdrop, ← List.map_drop]
    exact decide_eq_decide.mpr (mem_dotted_iff _)

end Optisnap
